import Mathlib

/-!
Shallow embedding of the dataset scan engine of skyhookdm-arrow
(`cpp/src/arrow/dataset/scanner.cc`): scan configuration (`ScanOptions`),
the builder that validates and binds projection/filter (`ScannerBuilder`),
the fragment → scan-task → record-batch pipeline (`Scanner`), and the
concurrent table-assembly algorithm (`TableAssemblyState`, `ToTable`).

C++ status-returning mutators are embedded as state-passing functions
returning `Except String`; the completion order of the task group's tasks
(serial: submission order; threaded: arbitrary) is an explicit parameter,
quantified over permutations of submission order in the theorems.
External collaborators that live outside `scanner.cc` (schema lookup,
expression binding, fragment enumeration, table construction) are modelled
from the spec's description of their contracts, and are marked as such.
-/

namespace SkyhookDM

/-- A named, typed field of a schema. -/
structure Field where
  name : String
  dtype : String
deriving DecidableEq, Repr

/-- Schema: ordered sequence of named, typed fields. -/
structure Schema where
  fields : List Field
deriving DecidableEq, Repr

/-- The ordered list of field names of a schema. -/
def Schema.names (s : Schema) : List String :=
  s.fields.map Field.name

/-- Modelled from the spec: `FieldRef::FindOne` (expression layer, outside
`scanner.cc`): a field reference resolves iff it matches exactly one schema
field, yielding its index ("field names referenced by projection/filter must
exist and be unique-resolvable"). -/
def Schema.findOne (s : Schema) (name : String) : Except String Nat :=
  match (s.names.enum.filter (fun p => p.2 == name)) with
  | [(i, _)] => .ok i
  | [] => .error ("No match for FieldRef.Name(" ++ name ++ ")")
  | _ => .error ("Multiple matches for FieldRef.Name(" ++ name ++ ")")

/-- Modelled from the spec: `Schema::CanReferenceFieldsByNames` (arrow core,
outside `scanner.cc`): succeeds iff every listed column name is findable and
unique-resolvable in the schema. -/
def Schema.CanReferenceFieldsByNames (s : Schema) (names : List String) :
    Except String Unit :=
  match names with
  | [] => .ok ()
  | n :: rest => do
      let _ ← s.findOne n
      s.CanReferenceFieldsByNames rest

/-- Unbound filter expression (expression layer): boolean literals, named
field references, and boolean connectives. -/
inductive Expression where
  | literal (b : Bool)
  | fieldRef (name : String)
  | andE (l r : Expression)
  | notE (e : Expression)
deriving DecidableEq, Repr

/-- Modelled from the spec: `FieldsInExpression` (expression layer): the
sequence of field references occurring anywhere in an expression. -/
def FieldsInExpression : Expression → List String
  | .literal _ => []
  | .fieldRef n => [n]
  | .andE l r => FieldsInExpression l ++ FieldsInExpression r
  | .notE e => FieldsInExpression e

/-- A bound expression: every field reference resolved to a concrete schema
field index (its name is kept alongside, as arrow's bound refs keep names). -/
inductive BoundExpression where
  | literal (b : Bool)
  | fieldRef (index : Nat) (name : String)
  | andE (l r : BoundExpression)
  | notE (e : BoundExpression)
deriving DecidableEq, Repr

/-- The field names referenced in a bound expression (what
`FieldsInExpression` returns on a stored, bound filter). -/
def FieldsInBoundExpression : BoundExpression → List String
  | .literal _ => []
  | .fieldRef _ n => [n]
  | .andE l r => FieldsInBoundExpression l ++ FieldsInBoundExpression r
  | .notE e => FieldsInBoundExpression e

/-- Modelled from the spec: `Expression::Bind(schema)` (expression layer):
resolves every field reference against the schema, failing if any cannot be
resolved to exactly one field; yields the bound expression. -/
def Expression.bind : Expression → Schema → Except String BoundExpression
  | .literal b, _ => .ok (.literal b)
  | .fieldRef n, s => do
      let i ← s.findOne n
      .ok (.fieldRef i n)
  | .andE l r, s => do
      let bl ← l.bind s
      let br ← r.bind s
      .ok (.andE bl br)
  | .notE e, s => do
      let be ← e.bind s
      .ok (.notE be)

/-- Row-level evaluation of a bound filter (a row assigns a boolean to each
field index); used only to state that the default filter accepts every row. -/
def BoundExpression.eval : BoundExpression → (Nat → Bool) → Bool
  | .literal b, _ => b
  | .fieldRef i _, row => row i
  | .andE l r, row => l.eval row && r.eval row
  | .notE e, row => !(e.eval row)

/-- Record batch: external columnar container; the scan engine only moves
and collects it. Modelled as its schema plus an opaque payload. -/
structure RecordBatch where
  schema : Schema
  payload : Nat
deriving DecidableEq, Repr

/-- Table: external container of batches sharing a schema. -/
structure Table where
  schema : Schema
  batches : List RecordBatch
deriving DecidableEq, Repr

/-- Modelled from the spec: `Table::FromRecordBatches(schema, batches)`
(table container, outside `scanner.cc`): "fails if batch schemas are
incompatible with target schema". -/
def Table.FromRecordBatches (schema : Schema) (batches : List RecordBatch) :
    Except String Table :=
  if batches.all (fun b => b.schema == schema) then .ok ⟨schema, batches⟩
  else .error "Schema of a record batch did not match the target schema"

/-- `ScanOptions` (scanner.h/scanner.cc): per-scan configuration. The filter
is stored bound; before any `Filter` call has bound one, it is modelled as
`none` (an absent/unbound filter is not a valid value, spec §4.1). The
projector is derived from the schema (`RecordBatchProjector(schema)`),
modelled by the schema it projects to. -/
structure ScanOptions where
  schema : Schema
  filter : Option BoundExpression
  batch_size : Int
  projector : Schema

/-- `ScanOptions::Make(schema)`: fresh options for a schema; the default
batch size is the header's 1 << 20 hint (value irrelevant to the claims). -/
def ScanOptions.Make (schema : Schema) : ScanOptions :=
  { schema := schema, filter := none, batch_size := (1 <<< 20 : Int),
    projector := schema }

/-- `ScanOptions::ReplaceSchema` (scanner.cc:43-49): fresh options on the new
schema (re-deriving the projector), carrying over filter and batch size. -/
def ScanOptions.ReplaceSchema (o : ScanOptions) (schema : Schema) : ScanOptions :=
  let copy := ScanOptions.Make schema
  { copy with filter := o.filter, batch_size := o.batch_size }

/-- `ScanOptions::MaterializedFields` (scanner.cc:51-64): push every schema
field name, then every field name referenced in the filter. An options value
whose filter was never bound contributes no filter fields. -/
def ScanOptions.MaterializedFields (o : ScanOptions) : List String :=
  o.schema.names ++
    (match o.filter with
     | some f => FieldsInBoundExpression f
     | none => [])

/-- `ScanContext`: execution environment; `use_threads` selects the threaded
task group over the serial one. -/
structure ScanContext where
  use_threads : Bool
deriving DecidableEq, Repr

/-- `ScanTask`: unit of work producing a sequence of record batches.
`inMemory` is `InMemoryScanTask` (scanner.cc:66-68), wrapping captured
batches together with the options and context it was created with;
`fragmentBacked` is the external fragment-provided variant, opaque except
for its `Execute` outcome. -/
inductive ScanTask where
  | inMemory (record_batches : List RecordBatch) (options : ScanOptions)
      (context : ScanContext)
  | fragmentBacked (execute : Unit → Except String (List RecordBatch))

/-- `ScanTask::Execute`: `InMemoryScanTask::Execute` (scanner.cc:66-68)
returns an iterator over exactly its captured batches
(`MakeVectorIterator(record_batches_)`); a fragment-backed task delegates to
the fragment's own batch production. -/
def ScanTask.Execute : ScanTask → Except String (List RecordBatch)
  | .inMemory record_batches _ _ => .ok record_batches
  | .fragmentBacked execute => execute ()

/-- Fragment: opaque external source of record batches; combined with
options and context it produces its scan task (spec §6). -/
structure Fragment where
  scan : ScanOptions → ScanContext → ScanTask

/-- Dataset: external; lazily yields fragments, possibly pruned with the
bound filter (spec §6: `GetFragments(filter) -> lazy sequence of Fragment`). -/
structure Dataset where
  schema : Schema
  getFragments : Option BoundExpression → List Fragment

/-- A fragment sequence: either an already-enumerated vector iterator
(`MakeVectorIterator`) or a lazily constructed sequence whose enumeration
function has not been invoked yet. -/
inductive FragmentSeq where
  | ofList (l : List Fragment)
  | lazySeq (f : Unit → List Fragment)

/-- Advancing a fragment sequence to exhaustion: only here is a lazy
sequence's enumeration function invoked. -/
def FragmentSeq.toList : FragmentSeq → List Fragment
  | .ofList l => l
  | .lazySeq f => f ()

/-- Modelled from the spec: `GetFragmentsFromDatasets` (dataset_internal.h,
outside `scanner.cc`): flattens the datasets' fragment sequences, each
obtained with the given filter. -/
def GetFragmentsFromDatasets (ds : List Dataset)
    (filter : Option BoundExpression) : List Fragment :=
  (ds.map (fun d => d.getFragments filter)).flatten

/-- `ScannerBuilder` (scanner.cc:97-163): holds either a dataset or a single
fragment (with its schema), the options being configured, and the pending
projection request. -/
structure ScannerBuilder where
  dataset : Option Dataset
  fragment : Option Fragment
  fragment_schema : Schema
  scan_options : ScanOptions
  scan_context : ScanContext
  has_projection : Bool
  project_columns : List String

/-- `ScannerBuilder::schema()` (scanner.cc:117-119): the fragment's schema
when built from a fragment, else the dataset's. -/
def ScannerBuilder.schema (b : ScannerBuilder) : Schema :=
  match b.fragment with
  | some _ => b.fragment_schema
  | none =>
      match b.dataset with
      | some d => d.schema
      | none => b.fragment_schema

/-- `ScannerBuilder::Project` (scanner.cc:121-126): validate that every
column is referenceable by name, then record the request. -/
def ScannerBuilder.Project (b : ScannerBuilder) (columns : List String) :
    Except String ScannerBuilder := do
  let _ ← b.schema.CanReferenceFieldsByNames columns
  .ok { b with has_projection := true, project_columns := columns }

/-- The validation loop of `ScannerBuilder::Filter` (scanner.cc:129-131):
`FindOne` each field reference against the schema, failing on the first
unresolvable one. -/
def checkFieldRefs (s : Schema) : List String → Except String Unit
  | [] => .ok ()
  | ref :: rest => do
      let _ ← s.findOne ref
      checkFieldRefs s rest

/-- `ScannerBuilder::Filter` (scanner.cc:128-134): resolve every field
reference, bind the expression against the builder's schema and store it.
On failure nothing is assigned, so the caller's builder keeps its previous
filter. -/
def ScannerBuilder.Filter (b : ScannerBuilder) (filter : Expression) :
    Except String ScannerBuilder := do
  let _ ← checkFieldRefs b.schema (FieldsInExpression filter)
  let bound ← filter.bind b.schema
  .ok { b with scan_options := { b.scan_options with filter := some bound } }

/-- `ScannerBuilder::UseThreads` (scanner.cc:136-139). -/
def ScannerBuilder.UseThreads (b : ScannerBuilder) (use_threads : Bool) :
    Except String ScannerBuilder :=
  .ok { b with scan_context := { use_threads := use_threads } }

/-- `ScannerBuilder::BatchSize` (scanner.cc:141-147): invalid unless
strictly positive. -/
def ScannerBuilder.BatchSize (b : ScannerBuilder) (batch_size : Int) :
    Except String ScannerBuilder :=
  if batch_size ≤ 0 then
    .error ("BatchSize must be greater than 0, got " ++ toString batch_size)
  else
    .ok { b with scan_options := { b.scan_options with batch_size := batch_size } }

/-- `ScannerBuilder::ScannerBuilder(dataset, context)` (scanner.cc:97-104):
fresh options on the dataset's schema, then `DCHECK_OK(Filter(literal(true)))`
binds the always-true filter (binding a literal cannot fail; the error arm is
unreachable and returns the pre-bind builder). -/
def ScannerBuilder.fromDataset (d : Dataset) (ctx : ScanContext) :
    ScannerBuilder :=
  let b0 : ScannerBuilder :=
    { dataset := some d, fragment := none, fragment_schema := ⟨[]⟩,
      scan_options := ScanOptions.Make d.schema, scan_context := ctx,
      has_projection := false, project_columns := [] }
  match b0.Filter (.literal true) with
  | .ok b => b
  | .error _ => b0

/-- `ScannerBuilder::ScannerBuilder(schema, fragment, context)`
(scanner.cc:106-115): same, for a single fragment with its schema. -/
def ScannerBuilder.fromFragment (schema : Schema) (f : Fragment)
    (ctx : ScanContext) : ScannerBuilder :=
  let b0 : ScannerBuilder :=
    { dataset := none, fragment := some f, fragment_schema := schema,
      scan_options := ScanOptions.Make schema, scan_context := ctx,
      has_projection := false, project_columns := [] }
  match b0.Filter (.literal true) with
  | .ok b => b
  | .error _ => b0

/-- Modelled from the spec: `SchemaFromColumnNames` (dataset_internal.h,
outside `scanner.cc`): "a schema containing only the requested columns
(order preserved, in request order)". -/
def SchemaFromColumnNames (s : Schema) (columns : List String) : Schema :=
  ⟨columns.filterMap (fun n => s.fields.find? (fun f => f.name == n))⟩

/-- `Scanner` (scanner.h): either a dataset or a single fragment, plus the
finalized options and context. -/
structure Scanner where
  dataset : Option Dataset
  fragment : Option Fragment
  scan_options : ScanOptions
  scan_context : ScanContext

/-- `ScannerBuilder::Finish` (scanner.cc:149-163): narrow the schema to the
projected columns when a non-empty projection was requested, else keep the
options as they are; then build the scanner from the fragment (when the
builder has no dataset) or the dataset. -/
def ScannerBuilder.Finish (b : ScannerBuilder) : Scanner :=
  let scan_options :=
    if b.has_projection && !b.project_columns.isEmpty then
      b.scan_options.ReplaceSchema (SchemaFromColumnNames b.schema b.project_columns)
    else
      b.scan_options
  if b.dataset.isNone then
    { dataset := none, fragment := b.fragment, scan_options := scan_options,
      scan_context := b.scan_context }
  else
    { dataset := b.dataset, fragment := none, scan_options := scan_options,
      scan_context := b.scan_context }

/-- `Scanner::GetFragments` (scanner.cc:70-79): a one-element vector iterator
when built from a single fragment; otherwise a lazily constructed sequence
over the dataset's fragments, obtained with the bound filter only when the
sequence is advanced. -/
def Scanner.GetFragments (s : Scanner) : FragmentSeq :=
  match s.fragment with
  | some f => .ofList [f]
  | none => .lazySeq (fun _ => GetFragmentsFromDatasets s.dataset.toList s.scan_options.filter)

/-- Modelled from the spec: `GetScanTaskIterator` (scanner_internal.h,
outside `scanner.cc`): the fragment → ScanTask transform, one task per
fragment, in fragment-enumeration order (spec §4.2). -/
def GetScanTaskIterator (fragments : List Fragment) (options : ScanOptions)
    (context : ScanContext) : List ScanTask :=
  fragments.map (fun f => f.scan options context)

/-- `Scanner::Scan` (scanner.cc:81-87): compose `GetFragments` with the
fragment → ScanTask transform. -/
def Scanner.Scan (s : Scanner) : List ScanTask :=
  GetScanTaskIterator s.GetFragments.toList s.scan_options s.scan_context

/-- `ScanTaskIteratorFromRecordBatch` (scanner.cc:89-95): a single in-memory
scan task wrapping the given batches. -/
def ScanTaskIteratorFromRecordBatch (batches : List RecordBatch)
    (options : ScanOptions) (context : ScanContext) : List ScanTask :=
  [.inMemory batches options context]

/-- `FlattenRecordBatchVector` (scanner.cc:175-186): flatten the per-task
batch lists, in index order, into one linear batch sequence. -/
def FlattenRecordBatchVector (nested_batches : List (List RecordBatch)) :
    List RecordBatch :=
  nested_batches.flatten

/-- `TableAssemblyState` (scanner.cc:188-200): the growable collection of
per-task batch groups, indexed by task submission index. The C++ mutex
serializes `Emplace` calls; the model applies them sequentially in
completion order, which is what the lock guarantees. -/
structure TableAssemblyState where
  batches : List (List RecordBatch)
deriving DecidableEq, Repr

/-- `TableAssemblyState::Emplace` (scanner.cc:193-199): grow the collection
to `position + 1` entries when too short (`resize` fills new slots with
empty groups), then store `b` at `position`. -/
def TableAssemblyState.Emplace (s : TableAssemblyState) (b : List RecordBatch)
    (position : Nat) : TableAssemblyState :=
  let grown :=
    if s.batches.length ≤ position then
      s.batches ++ List.replicate (position + 1 - s.batches.length) []
    else
      s.batches
  ⟨grown.set position b⟩

/-- The outcomes of the closures `ToTable` appends to the task group
(scanner.cc:216-221), in completion order: each submission id `id` paired
with its task's `Execute`-and-collect outcome. `order` lists the submission
ids in the order the tasks complete (serial task group: submission order;
threaded: arbitrary). -/
def Scanner.completions (s : Scanner) (order : List Nat) :
    List (Nat × Except String (List RecordBatch)) :=
  let tasks := s.Scan
  order.map (fun id =>
    (id, (tasks.getD id (.inMemory [] s.scan_options s.scan_context)).Execute))

/-- Run the per-task closures in completion order: a succeeding task
emplaces its collected batch list at its submission id (scanner.cc:219); a
failing task stores nothing. -/
def completeTasks (state : TableAssemblyState) :
    List (Nat × Except String (List RecordBatch)) → TableAssemblyState
  | [] => state
  | (id, .ok localBatches) :: rest =>
      completeTasks (state.Emplace localBatches id) rest
  | (_, .error _) :: rest => completeTasks state rest

/-- Modelled from the spec: `TaskGroup::Finish` (task-group layer, outside
`scanner.cc`): "Finish() -> first error or success" — the first error among
the task outcomes in completion order, success when every task succeeded. -/
def taskGroupFinish :
    List (Nat × Except String (List RecordBatch)) → Except String Unit
  | [] => .ok ()
  | (_, .ok _) :: rest => taskGroupFinish rest
  | (_, .error e) :: _ => .error e

/-- `Scanner::ToTable` (scanner.cc:202-229) with the task group's completion
order explicit: run every task, wait for all to complete or the first error
(`RETURN_NOT_OK(task_group->Finish())`), then flatten the assembly state in
index order and construct the table against the final options' schema. -/
def Scanner.ToTableWithOrder (s : Scanner) (order : List Nat) :
    Except String Table :=
  let completions := s.completions order
  let state := completeTasks ⟨[]⟩ completions
  match taskGroupFinish completions with
  | .error e => .error e
  | .ok _ =>
      Table.FromRecordBatches s.scan_options.schema
        (FlattenRecordBatchVector state.batches)

/-- `Scanner::ToTable` with the serial task group's completion order
(tasks run synchronously in submission order, scanner.cc:211-215). -/
def Scanner.ToTable (s : Scanner) : Except String Table :=
  s.ToTableWithOrder (List.range s.Scan.length)

/-! Concrete sample objects used by the witness theorems. -/

def fieldA : Field := ⟨"a", "int64"⟩

def fieldB : Field := ⟨"b", "int64"⟩

def sampleSchema : Schema := ⟨[fieldA, fieldB]⟩

def batchA : RecordBatch := ⟨sampleSchema, 0⟩

def batchB : RecordBatch := ⟨sampleSchema, 1⟩

def sampleCtx : ScanContext := ⟨false⟩

def fragA : Fragment := ⟨fun o c => .inMemory [batchA] o c⟩

def fragB : Fragment := ⟨fun o c => .inMemory [batchB] o c⟩

def sampleDataset : Dataset := ⟨sampleSchema, fun _ => [fragA, fragB]⟩

def sampleBuilder : ScannerBuilder :=
  ScannerBuilder.fromDataset sampleDataset sampleCtx

def sampleScanner : Scanner := sampleBuilder.Finish

/-- Claim C5: `BatchSize(n)` fails with the Invalid-argument error exactly
when `n ≤ 0`, and for `n > 0` succeeds, setting `ScanOptions.batch_size`
to `n` and changing nothing else. -/
theorem BatchSize_spec (b : ScannerBuilder) (n : Int) :
    (n ≤ 0 → b.BatchSize n =
      .error ("BatchSize must be greater than 0, got " ++ toString n)) ∧
    (0 < n → b.BatchSize n =
      .ok { b with scan_options := { b.scan_options with batch_size := n } }) := by
  constructor
  · intro h
    simp [ScannerBuilder.BatchSize, h]
  · intro h
    simp [ScannerBuilder.BatchSize, not_le.mpr h]

/-- Witness for claim C5: `BatchSize(0)` and `BatchSize(-5)` fail,
`BatchSize(1)` succeeds and stores batch size 1. -/
theorem BatchSize_spec_witness :
    sampleBuilder.BatchSize 0 =
      .error ("BatchSize must be greater than 0, got " ++ toString (0 : Int)) ∧
    sampleBuilder.BatchSize (-5) =
      .error ("BatchSize must be greater than 0, got " ++ toString (-5 : Int)) ∧
    sampleBuilder.BatchSize 1 =
      .ok { sampleBuilder with
              scan_options := { sampleBuilder.scan_options with batch_size := 1 } } :=
  ⟨(BatchSize_spec sampleBuilder 0).1 (by decide),
   (BatchSize_spec sampleBuilder (-5)).1 (by decide),
   (BatchSize_spec sampleBuilder 1).2 (by decide)⟩

/-- `Emplace` grows the collection to exactly `max` of the old size and
`position + 1`. -/
theorem Emplace_length (s : TableAssemblyState) (b : List RecordBatch) (p : Nat) :
    (s.Emplace b p).batches.length = max s.batches.length (p + 1) := by
  unfold TableAssemblyState.Emplace
  by_cases h : s.batches.length ≤ p <;>
    simp [h] <;> omega

/-- `Emplace` stores `b` at `position`. -/
theorem Emplace_get_self (s : TableAssemblyState) (b : List RecordBatch) (p : Nat) :
    (s.Emplace b p).batches[p]? = some b := by
  unfold TableAssemblyState.Emplace
  by_cases h : s.batches.length ≤ p
  · simp only [if_pos h]
    exact List.getElem?_set_eq_of_lt _ (by simp; omega)
  · simp only [if_neg h]
    exact List.getElem?_set_eq_of_lt _ (by omega)

/-- `Emplace` leaves every already-present entry at an index other than
`position` unchanged. -/
theorem Emplace_get_preserve (s : TableAssemblyState) (b : List RecordBatch)
    (p q : Nat) (v : List RecordBatch) (hne : q ≠ p)
    (hv : s.batches[q]? = some v) :
    (s.Emplace b p).batches[q]? = some v := by
  have hq : q < s.batches.length := by
    by_contra hge
    rw [List.getElem?_eq_none (by omega)] at hv
    cases hv
  unfold TableAssemblyState.Emplace
  by_cases h : s.batches.length ≤ p
  · simp only [if_pos h]
    rw [List.getElem?_set_ne (by omega)]
    rw [List.getElem?_append_left hq]
    exact hv
  · simp only [if_neg h]
    rw [List.getElem?_set_ne (by omega)]
    exact hv

/-- The slots `Emplace` creates below `position` hold empty batch groups. -/
theorem Emplace_get_new (s : TableAssemblyState) (b : List RecordBatch)
    (p q : Nat) (h1 : s.batches.length ≤ q) (h2 : q < p) :
    (s.Emplace b p).batches[q]? = some [] := by
  unfold TableAssemblyState.Emplace
  simp only [if_pos (le_of_lt (lt_of_le_of_lt h1 h2))]
  rw [List.getElem?_set_ne (by omega)]
  rw [List.getElem?_append_right h1]
  simp [List.getElem?_replicate]; omega

/-- Claim C10: `Emplace(b, position)` grows the collection to at least
`position + 1` slots (new slots empty), stores `b` at `position`, leaves
every other stored group unchanged, and a later `Emplace` at a distinct
index never overwrites it. -/
theorem Emplace_spec (s : TableAssemblyState) (b : List RecordBatch) (p : Nat) :
    p + 1 ≤ (s.Emplace b p).batches.length ∧
    (s.Emplace b p).batches[p]? = some b ∧
    (∀ q v, q ≠ p → s.batches[q]? = some v →
      (s.Emplace b p).batches[q]? = some v) ∧
    (∀ q, s.batches.length ≤ q → q < p →
      (s.Emplace b p).batches[q]? = some []) ∧
    (∀ b2 p2, p2 ≠ p →
      ((s.Emplace b p).Emplace b2 p2).batches[p]? = some b) := by
  refine ⟨?_, Emplace_get_self s b p, ?_, ?_, ?_⟩
  · rw [Emplace_length]; omega
  · intro q v hne hv
    exact Emplace_get_preserve s b p q v hne hv
  · intro q h1 h2
    exact Emplace_get_new s b p q h1 h2
  · intro b2 p2 hne
    exact Emplace_get_preserve _ b2 p2 p b (Ne.symm hne) (Emplace_get_self s b p)

/-- Witness for claim C10 on a one-slot state: emplacing at index 2 keeps
index 0, fills the fresh index 1 with an empty group, stores at index 2, and
survives a later emplace at index 0. -/
theorem Emplace_spec_witness :
    2 + 1 ≤ ((⟨[[batchA]]⟩ : TableAssemblyState).Emplace [batchB] 2).batches.length ∧
    ((⟨[[batchA]]⟩ : TableAssemblyState).Emplace [batchB] 2).batches[2]? = some [batchB] ∧
    ((⟨[[batchA]]⟩ : TableAssemblyState).Emplace [batchB] 2).batches[0]? = some [batchA] ∧
    ((⟨[[batchA]]⟩ : TableAssemblyState).Emplace [batchB] 2).batches[1]? = some [] ∧
    (((⟨[[batchA]]⟩ : TableAssemblyState).Emplace [batchB] 2).Emplace [batchA] 0).batches[2]? =
      some [batchB] :=
  have h := Emplace_spec (⟨[[batchA]]⟩ : TableAssemblyState) [batchB] 2
  ⟨h.1, h.2.1, h.2.2.1 0 [batchA] (by decide) (by decide),
   h.2.2.2.1 1 (by decide) (by decide), h.2.2.2.2 [batchA] 0 (by decide)⟩

/-- Claim C9: both `ScannerBuilder` constructors bind the literal-true
filter against their schema at construction time, so a `Scanner` finished
without any `Filter` call still carries a bound (never absent) filter that
accepts every row. -/
theorem builder_initial_filter (d : Dataset) (schema : Schema) (f : Fragment)
    (ctx ctx2 : ScanContext) :
    (ScannerBuilder.fromDataset d ctx).scan_options.filter =
      some (.literal true) ∧
    (ScannerBuilder.fromFragment schema f ctx2).scan_options.filter =
      some (.literal true) ∧
    ((ScannerBuilder.fromDataset d ctx).Finish).scan_options.filter =
      some (.literal true) ∧
    ((ScannerBuilder.fromFragment schema f ctx2).Finish).scan_options.filter =
      some (.literal true) ∧
    (∀ row, BoundExpression.eval (.literal true) row = true) :=
  ⟨rfl, rfl, rfl, rfl, fun _ => rfl⟩

/-- The field names referenced in the stored filter, as they contribute to
`MaterializedFields` (empty when no filter was ever bound). -/
def filterFieldNames (o : ScanOptions) : List String :=
  match o.filter with
  | some f => FieldsInBoundExpression f
  | none => []

/-- Counterexample to claim C3: options over schema `[a, b]` whose filter
references `a` — a schema field name — yield `MaterializedFields` =
`[a, b, a]`, listing `a` twice, so the result is not a duplicate-free union. -/
theorem MaterializedFields_counterexample :
    (sampleBuilder.Filter (.fieldRef "a")).map
        (fun b2 => b2.scan_options.MaterializedFields) = .ok ["a", "b", "a"] ∧
    ¬ (["a", "b", "a"] : List String).Nodup :=
  ⟨rfl, by decide⟩

/-- Claim C3 as amended: `MaterializedFields()` returns every field name of
the current schema, in order, followed by every field name referenced in the
filter, in order — a filter-referenced name is appended whether or not it
already occurs in the schema, so a name can be listed twice. -/
theorem MaterializedFields_spec (o : ScanOptions) :
    o.MaterializedFields = o.schema.names ++ filterFieldNames o ∧
    (∀ n, n ∈ o.schema.names → n ∈ o.MaterializedFields) ∧
    (∀ n, n ∈ filterFieldNames o → n ∈ o.MaterializedFields) := by
  refine ⟨rfl, ?_, ?_⟩
  · intro n hn
    exact List.mem_append_left _ hn
  · intro n hn
    exact List.mem_append_right _ hn

/-- Concrete options with a bound filter referencing schema field `a`. -/
def boundFilterOptions : ScanOptions :=
  { ScanOptions.Make sampleSchema with filter := some (.fieldRef 0 "a") }

/-- Witness for claim C3 (amended): on options over `[a, b]` filtering on
`a`, the materialized fields are the schema names followed by the filter
names, and both `b` (schema-only) and `a` (filter-referenced) are listed. -/
theorem MaterializedFields_spec_witness :
    boundFilterOptions.MaterializedFields =
      boundFilterOptions.schema.names ++ filterFieldNames boundFilterOptions ∧
    "b" ∈ boundFilterOptions.MaterializedFields ∧
    "a" ∈ boundFilterOptions.MaterializedFields :=
  have h := MaterializedFields_spec boundFilterOptions
  ⟨h.1, h.2.1 "b" (by decide), h.2.2 "a" (by decide)⟩

/-- A successfully resolving field reference names an actual schema field. -/
theorem findOne_ok_mem (s : Schema) (n : String) (i : Nat)
    (h : s.findOne n = .ok i) : ∃ f ∈ s.fields, f.name = n := by
  unfold Schema.findOne at h
  cases hfil : s.names.enum.filter (fun p => p.2 == n) with
  | nil =>
      rw [hfil] at h
      cases h
  | cons hd tl =>
      have hmem : hd ∈ s.names.enum.filter (fun p => p.2 == n) := by
        rw [hfil]
        exact List.mem_cons_self _ _
      have hdn : hd.2 = n := by simpa using (List.mem_filter.mp hmem).2
      have hin : hd.2 ∈ s.names := List.snd_mem_of_mem_enum (List.mem_of_mem_filter hmem)
      rw [hdn] at hin
      obtain ⟨f, hf, hfn⟩ := List.mem_map.mp hin
      exact ⟨f, hf, hfn⟩

/-- Every column validated by `CanReferenceFieldsByNames` names a schema
field. -/
theorem CanReference_resolves (s : Schema) (columns : List String)
    (h : ∃ u, s.CanReferenceFieldsByNames columns = .ok u) :
    ∀ n ∈ columns, ∃ f ∈ s.fields, f.name = n := by
  induction columns with
  | nil =>
      intro n hn
      cases hn
  | cons c rest ih =>
      obtain ⟨u, hu⟩ := h
      unfold Schema.CanReferenceFieldsByNames at hu
      cases hfind : s.findOne c with
      | error e =>
          rw [hfind] at hu
          simp only [bind, Except.bind] at hu
          exact Except.noConfusion hu
      | ok i =>
          rw [hfind] at hu
          simp only [bind, Except.bind] at hu
          intro n hn
          rcases List.mem_cons.mp hn with rfl | hn2
          · exact findOne_ok_mem s n i hfind
          · exact ih ⟨u, hu⟩ n hn2

/-- `SchemaFromColumnNames` keeps exactly the requested names, in request
order, whenever each requested name occurs in the schema. -/
theorem SchemaFromColumnNames_names (s : Schema) (columns : List String)
    (h : ∀ n ∈ columns, ∃ f ∈ s.fields, f.name = n) :
    (SchemaFromColumnNames s columns).names = columns := by
  induction columns with
  | nil => rfl
  | cons c rest ih =>
      obtain ⟨f0, hf0, hname⟩ := h c (List.mem_cons_self _ _)
      have hsome : (s.fields.find? (fun f => f.name == c)).isSome := by
        rw [List.find?_isSome]
        exact ⟨f0, hf0, by simp [hname]⟩
      obtain ⟨g, hg⟩ := Option.isSome_iff_exists.mp hsome
      have hgname : g.name = c := by simpa using List.find?_some hg
      have htail := ih (fun n hn => h n (List.mem_cons_of_mem _ hn))
      simp only [SchemaFromColumnNames, Schema.names] at htail ⊢
      rw [List.filterMap_cons, hg]
      simp [hgname, htail]

/-- Claim C2 as amended: after a successful `Project(C)` with a non-empty
`C`, `Finish()` yields a Scanner whose `ScanOptions` schema has exactly the
fields `C`, in request order; for the empty subset the full schema is
retained (see the counterexample). -/
theorem Project_Finish_schema (b b2 : ScannerBuilder) (columns : List String)
    (hproj : b.Project columns = .ok b2) (hne : columns ≠ []) :
    (b2.Finish).scan_options.schema.names = columns := by
  unfold ScannerBuilder.Project at hproj
  cases hcan : b.schema.CanReferenceFieldsByNames columns with
  | error e =>
      rw [hcan] at hproj
      simp only [bind, Except.bind] at hproj
      exact Except.noConfusion hproj
  | ok u =>
      rw [hcan] at hproj
      simp only [bind, Except.bind, Except.ok.injEq] at hproj
      subst hproj
      have hres : ∀ n ∈ columns, ∃ f ∈ b.schema.fields, f.name = n :=
        CanReference_resolves _ _ ⟨u, hcan⟩
      have hschema :
          ({ b with
              has_projection := true,
              project_columns := columns } : ScannerBuilder).schema = b.schema := by
        simp [ScannerBuilder.schema]
      have hempty : columns.isEmpty = false := by
        cases columns with
        | nil => exact absurd rfl hne
        | cons c rest => rfl
      unfold ScannerBuilder.Finish
      by_cases hd : b.dataset.isNone <;>
        simp [hd, hempty, hschema, ScanOptions.ReplaceSchema, ScanOptions.Make,
          SchemaFromColumnNames_names b.schema columns hres]

/-- Counterexample to claim C2: on the empty column subset, `Project([])`
succeeds, but `Finish()` keeps the full two-field schema `[a, b]` rather
than producing a schema with no fields. -/
theorem Project_empty_counterexample :
    (sampleBuilder.Project []).map
        (fun b2 => (b2.Finish).scan_options.schema.names) = .ok ["a", "b"] ∧
    (["a", "b"] : List String) ≠ ([] : List String) :=
  ⟨rfl, by decide⟩

/-- Witness for claim C2 (amended): projecting `["b"]` on the two-field
sample builder and finishing yields a scanner whose schema is exactly
`["b"]`. -/
theorem Project_Finish_schema_witness :
    sampleBuilder.Project ["b"] =
      .ok { sampleBuilder with
              has_projection := true,
              project_columns := ["b"] } ∧
    ({ sampleBuilder with
        has_projection := true,
        project_columns := ["b"] } : ScannerBuilder).Finish.scan_options.schema.names =
      ["b"] :=
  ⟨rfl, Project_Finish_schema sampleBuilder _ ["b"] rfl (by decide)⟩

/-- Binding succeeds when every field reference in the expression resolves. -/
theorem bind_ok_of_resolves (e : Expression) (s : Schema)
    (h : ∀ n ∈ FieldsInExpression e, ∃ i, s.findOne n = .ok i) :
    ∃ be, e.bind s = .ok be := by
  induction e with
  | literal b => exact ⟨.literal b, rfl⟩
  | fieldRef n =>
      obtain ⟨i, hi⟩ := h n (by simp [FieldsInExpression])
      exact ⟨.fieldRef i n, by simp only [Expression.bind, hi, bind, Except.bind]⟩
  | andE l r ihl ihr =>
      obtain ⟨bl, hbl⟩ := ihl (fun n hn => h n (by simp [FieldsInExpression, hn]))
      obtain ⟨br, hbr⟩ := ihr (fun n hn => h n (by simp [FieldsInExpression, hn]))
      exact ⟨.andE bl br,
        by simp only [Expression.bind, hbl, hbr, bind, Except.bind]⟩
  | notE e ih =>
      obtain ⟨be, hbe⟩ := ih (fun n hn => h n (by simp [FieldsInExpression, hn]))
      exact ⟨.notE be, by simp only [Expression.bind, hbe, bind, Except.bind]⟩

/-- The `FindOne` loop of `Filter` succeeds when every reference resolves. -/
theorem checkFieldRefs_ok (s : Schema) (refs : List String)
    (h : ∀ n ∈ refs, ∃ i, s.findOne n = .ok i) :
    checkFieldRefs s refs = .ok () := by
  induction refs with
  | nil => rfl
  | cons n rest ih =>
      obtain ⟨i, hi⟩ := h n (List.mem_cons_self _ _)
      simp only [checkFieldRefs, hi, bind, Except.bind]
      exact ih (fun m hm => h m (List.mem_cons_of_mem _ hm))

/-- The `FindOne` loop of `Filter` fails when some reference does not
resolve. -/
theorem checkFieldRefs_error (s : Schema) (refs : List String)
    (h : ∃ n ∈ refs, ∃ m, s.findOne n = .error m) :
    ∃ msg, checkFieldRefs s refs = .error msg := by
  induction refs with
  | nil =>
      obtain ⟨n, hn, _⟩ := h
      cases hn
  | cons c rest ih =>
      cases hfind : s.findOne c with
      | error m =>
          exact ⟨m, by simp only [checkFieldRefs, hfind, bind, Except.bind]⟩
      | ok i =>
          obtain ⟨n, hn, m, hm⟩ := h
          rcases List.mem_cons.mp hn with rfl | hn2
          · rw [hfind] at hm
            cases hm
          · obtain ⟨msg, hmsg⟩ := ih ⟨n, hn2, m, hm⟩
            exact ⟨msg,
              by simp only [checkFieldRefs, hfind, bind, Except.bind]; exact hmsg⟩

/-- Claim C6: `Filter(e)` fails exactly when some field reference in `e`
does not resolve to exactly one schema field; on success it stores the
expression bound against the builder's schema as `ScanOptions.filter` and
changes nothing else. On failure no assignment happens, so the caller's
builder keeps its previously stored filter. -/
theorem Filter_spec (b : ScannerBuilder) (e : Expression) :
    ((∀ n ∈ FieldsInExpression e, ∃ i, b.schema.findOne n = .ok i) →
      ∃ be, e.bind b.schema = .ok be ∧
        b.Filter e = .ok { b with
          scan_options := { b.scan_options with filter := some be } }) ∧
    ((∃ n ∈ FieldsInExpression e, ∃ m, b.schema.findOne n = .error m) →
      ∃ msg, b.Filter e = .error msg) := by
  constructor
  · intro h
    obtain ⟨be, hbe⟩ := bind_ok_of_resolves e b.schema h
    refine ⟨be, hbe, ?_⟩
    unfold ScannerBuilder.Filter
    rw [checkFieldRefs_ok b.schema _ h]
    simp only [bind, Except.bind]
    rw [hbe]
  · intro h
    obtain ⟨msg, hmsg⟩ := checkFieldRefs_error b.schema _ h
    refine ⟨msg, ?_⟩
    unfold ScannerBuilder.Filter
    rw [hmsg]
    rfl

/-- Witness for claim C6: filtering on the existing column `a` binds and
stores it; filtering on the nonexistent column `zzz` fails. -/
theorem Filter_spec_witness :
    (∃ be, Expression.bind (.fieldRef "a") sampleBuilder.schema = .ok be ∧
      sampleBuilder.Filter (.fieldRef "a") = .ok { sampleBuilder with
        scan_options := { sampleBuilder.scan_options with filter := some be } }) ∧
    (∃ msg, sampleBuilder.Filter (.fieldRef "zzz") = .error msg) :=
  ⟨(Filter_spec sampleBuilder (.fieldRef "a")).1 (by
      intro n hn
      simp only [FieldsInExpression, List.mem_singleton] at hn
      subst hn
      exact ⟨0, rfl⟩),
   (Filter_spec sampleBuilder (.fieldRef "zzz")).2
      ⟨"zzz", by simp [FieldsInExpression],
        "No match for FieldRef.Name(zzz)", rfl⟩⟩

/-- Claim C8: a Scanner built from a single fragment returns the one-element
fragment sequence holding exactly that fragment; a Scanner built from a
dataset returns a lazily constructed sequence (the `.lazySeq` constructor:
its enumeration function is not yet applied) that yields the dataset's
fragments obtained with the bound filter once advanced. -/
theorem GetFragments_spec (s : Scanner) :
    (∀ f, s.fragment = some f → s.GetFragments = .ofList [f]) ∧
    (∀ d, s.fragment = none → s.dataset = some d →
      ∃ g, s.GetFragments = .lazySeq g ∧
        (∀ u, g u = d.getFragments s.scan_options.filter) ∧
        s.GetFragments.toList = d.getFragments s.scan_options.filter) := by
  constructor
  · intro f hf
    unfold Scanner.GetFragments
    rw [hf]
  · intro d hf hd
    refine ⟨fun _ => GetFragmentsFromDatasets s.dataset.toList s.scan_options.filter,
      ?_, ?_, ?_⟩
    · unfold Scanner.GetFragments
      rw [hf]
    · intro u
      simp [GetFragmentsFromDatasets, hd]
    · unfold Scanner.GetFragments
      rw [hf]
      simp [FragmentSeq.toList, GetFragmentsFromDatasets, hd]

/-- A scanner over a single fragment, used by the C8 witness. -/
def singleFragScanner : Scanner :=
  (ScannerBuilder.fromFragment sampleSchema fragA sampleCtx).Finish

/-- Witness for claim C8: the single-fragment scanner yields exactly
`[fragA]`; the dataset-backed sample scanner yields a lazy sequence that
advances to the dataset's fragments under the bound filter. -/
theorem GetFragments_spec_witness :
    singleFragScanner.GetFragments = .ofList [fragA] ∧
    (∃ g, sampleScanner.GetFragments = .lazySeq g ∧
      (∀ u, g u = sampleDataset.getFragments sampleScanner.scan_options.filter) ∧
      sampleScanner.GetFragments.toList =
        sampleDataset.getFragments sampleScanner.scan_options.filter) :=
  ⟨(GetFragments_spec singleFragScanner).1 fragA rfl,
   (GetFragments_spec sampleScanner).2 sampleDataset rfl rfl⟩

/-- Claim C7: a Scanner built directly from a fixed batch list as one
in-memory scan task scans to exactly that task
(`ScanTaskIteratorFromRecordBatch`), and `ToTable()` returns exactly those
batches, concatenated in their original order. The execution context is
arbitrary (`use_threads` on or off), and a single task has only one
completion order, so serial and threaded runs coincide. -/
theorem inmemory_roundtrip (batches : List RecordBatch) (opts : ScanOptions)
    (ctx : ScanContext)
    (hschema : batches.all (fun rb => rb.schema == opts.schema) = true) :
    (Scanner.mk none (some ⟨fun o c => .inMemory batches o c⟩) opts ctx).Scan =
      ScanTaskIteratorFromRecordBatch batches opts ctx ∧
    (Scanner.mk none (some ⟨fun o c => .inMemory batches o c⟩) opts ctx).ToTable =
      .ok ⟨opts.schema, batches⟩ := by
  constructor
  · rfl
  · unfold Scanner.ToTable Scanner.ToTableWithOrder
    simp only [Scanner.completions, Scanner.Scan, Scanner.GetFragments,
      FragmentSeq.toList, GetScanTaskIterator, List.map_cons, List.map_nil,
      List.length_cons, List.length_nil, List.range_succ, List.range_zero]
    simp [ScanTask.Execute, completeTasks, taskGroupFinish,
      TableAssemblyState.Emplace, FlattenRecordBatchVector,
      Table.FromRecordBatches, hschema]

/-- Witness for claim C7: the two sample batches round-trip through an
in-memory scan in both a serial and a threaded context. -/
theorem inmemory_roundtrip_witness :
    (Scanner.mk none (some ⟨fun o c => .inMemory [batchA, batchB] o c⟩)
        (ScanOptions.Make sampleSchema) ⟨false⟩).ToTable =
      .ok ⟨(ScanOptions.Make sampleSchema).schema, [batchA, batchB]⟩ ∧
    (Scanner.mk none (some ⟨fun o c => .inMemory [batchA, batchB] o c⟩)
        (ScanOptions.Make sampleSchema) ⟨true⟩).ToTable =
      .ok ⟨(ScanOptions.Make sampleSchema).schema, [batchA, batchB]⟩ :=
  ⟨(inmemory_roundtrip [batchA, batchB] (ScanOptions.Make sampleSchema)
      ⟨false⟩ (by decide)).2,
   (inmemory_roundtrip [batchA, batchB] (ScanOptions.Make sampleSchema)
      ⟨true⟩ (by decide)).2⟩

/-- A stored batch group survives any run of task completions at other
submission indices. -/
theorem completeTasks_preserve
    (pairs : List (Nat × Except String (List RecordBatch)))
    (state : TableAssemblyState) (i : Nat) (v : List RecordBatch)
    (hv : state.batches[i]? = some v) (hni : i ∉ pairs.map Prod.fst) :
    (completeTasks state pairs).batches[i]? = some v := by
  induction pairs generalizing state with
  | nil => exact hv
  | cons hd tl ih =>
      obtain ⟨id, r⟩ := hd
      simp only [List.map_cons, List.mem_cons, not_or] at hni
      cases r with
      | ok bl =>
          simp only [completeTasks]
          exact ih _ (Emplace_get_preserve state bl id i v hni.1 hv) hni.2
      | error e =>
          simp only [completeTasks]
          exact ih state hv hni.2

/-- When submission ids are pairwise distinct, a successful task's batch
group sits at its own id after all completions run, whatever the order. -/
theorem completeTasks_hit
    (pairs : List (Nat × Except String (List RecordBatch)))
    (state : TableAssemblyState) (i : Nat) (bl : List RecordBatch)
    (hnodup : (pairs.map Prod.fst).Nodup) (hmem : (i, Except.ok bl) ∈ pairs) :
    (completeTasks state pairs).batches[i]? = some bl := by
  induction pairs generalizing state with
  | nil => cases hmem
  | cons hd tl ih =>
      obtain ⟨id, r⟩ := hd
      simp only [List.map_cons, List.nodup_cons] at hnodup
      rcases List.mem_cons.mp hmem with heq | hmem2
      · injection heq with h1 h2
        subst h1
        subst h2
        simp only [completeTasks]
        exact completeTasks_preserve tl _ i bl (Emplace_get_self state bl i)
          hnodup.1
      · cases r with
        | ok bl2 =>
            simp only [completeTasks]
            exact ih _ hnodup.2 hmem2
        | error e =>
            simp only [completeTasks]
            exact ih state hnodup.2 hmem2

/-- Completions at submission ids below `n` never grow the assembly state
past `n` slots. -/
theorem completeTasks_length_le
    (pairs : List (Nat × Except String (List RecordBatch)))
    (state : TableAssemblyState) (n : Nat)
    (hlt : ∀ p ∈ pairs, p.1 < n) (hst : state.batches.length ≤ n) :
    (completeTasks state pairs).batches.length ≤ n := by
  induction pairs generalizing state with
  | nil => exact hst
  | cons hd tl ih =>
      obtain ⟨id, r⟩ := hd
      have hid : id < n := hlt (id, r) (List.mem_cons_self _ _)
      cases r with
      | ok bl =>
          simp only [completeTasks]
          refine ih _ (fun p hp => hlt p (List.mem_cons_of_mem _ hp)) ?_
          rw [Emplace_length]
          omega
      | error e =>
          simp only [completeTasks]
          exact ih state (fun p hp => hlt p (List.mem_cons_of_mem _ hp)) hst

/-- The task group's `Finish` reports success when every task succeeded. -/
theorem taskGroupFinish_ok
    (pairs : List (Nat × Except String (List RecordBatch)))
    (h : ∀ p ∈ pairs, ∃ bl, p.2 = .ok bl) :
    taskGroupFinish pairs = .ok () := by
  induction pairs with
  | nil => rfl
  | cons hd tl ih =>
      obtain ⟨id, r⟩ := hd
      obtain ⟨bl, hbl⟩ := h (id, r) (List.mem_cons_self _ _)
      simp only at hbl
      subst hbl
      simp only [taskGroupFinish]
      exact ih (fun p hp => h p (List.mem_cons_of_mem _ hp))

/-- The task group's `Finish` reports an error when some task failed. -/
theorem taskGroupFinish_error
    (pairs : List (Nat × Except String (List RecordBatch)))
    (id : Nat) (msg : String) (hmem : (id, Except.error msg) ∈ pairs) :
    ∃ e, taskGroupFinish pairs = .error e := by
  induction pairs with
  | nil => cases hmem
  | cons hd tl ih =>
      obtain ⟨id2, r⟩ := hd
      cases r with
      | error e => exact ⟨e, by simp only [taskGroupFinish]⟩
      | ok bl =>
          rcases List.mem_cons.mp hmem with heq | hmem2
          · injection heq with h1 h2
            exact Except.noConfusion h2
          · simpa only [taskGroupFinish] using ih hmem2

/-- Core of claim C1: when every task succeeds, driving the completions in
any permutation of submission order assembles exactly the per-task batch
lists, flattened in submission (= fragment-enumeration) order. -/
theorem toTableWithOrder_eq_flatten (s : Scanner) (order : List Nat)
    (batchLists : List (List RecordBatch))
    (hexec : s.Scan.map ScanTask.Execute = batchLists.map Except.ok)
    (hperm : order.Perm (List.range s.Scan.length)) :
    s.ToTableWithOrder order =
      Table.FromRecordBatches s.scan_options.schema batchLists.flatten := by
  have hlen : batchLists.length = s.Scan.length := by
    have hl := congrArg List.length hexec
    simpa using hl.symm
  have hidlt : ∀ id ∈ order, id < s.Scan.length := fun id hid =>
    List.mem_range.mp (hperm.mem_iff.mp hid)
  have hpoint : ∀ id, id < s.Scan.length →
      (s.Scan.getD id (.inMemory [] s.scan_options s.scan_context)).Execute =
        Except.ok (batchLists.getD id []) := by
    intro id hidn
    have hid2 : id < batchLists.length := by omega
    have h2 := congrArg (fun l => l[id]?) hexec
    simp only [List.getElem?_map] at h2
    rw [List.getElem?_eq_getElem hidn, List.getElem?_eq_getElem hid2] at h2
    simp only [Option.map_some'] at h2
    rw [List.getD_eq_getElem _ _ hidn, List.getD_eq_getElem _ _ hid2]
    simpa using h2
  have hcomp : s.completions order =
      order.map (fun id => (id, Except.ok (batchLists.getD id []))) := by
    unfold Scanner.completions
    refine List.map_congr_left ?_
    intro id hid
    rw [hpoint id (hidlt id hid)]
  have hfsts : (s.completions order).map Prod.fst = order := by
    rw [hcomp, List.map_map]
    exact List.map_id' order
  have hnodup : ((s.completions order).map Prod.fst).Nodup := by
    rw [hfsts]
    exact hperm.nodup_iff.mpr (List.nodup_range _)
  have hallok : ∀ p ∈ s.completions order, ∃ bl, p.2 = Except.ok bl := by
    rw [hcomp]
    intro p hp
    obtain ⟨id, _, hpe⟩ := List.mem_map.mp hp
    exact ⟨batchLists.getD id [], by rw [← hpe]⟩
  have hget : ∀ i, i < s.Scan.length →
      (completeTasks ⟨[]⟩ (s.completions order)).batches[i]? =
        some (batchLists.getD i []) := by
    intro i hi
    refine completeTasks_hit _ _ i _ hnodup ?_
    rw [hcomp]
    exact List.mem_map.mpr ⟨i, hperm.mem_iff.mpr (List.mem_range.mpr hi), rfl⟩
  have hle : (completeTasks ⟨[]⟩ (s.completions order)).batches.length ≤
      s.Scan.length := by
    refine completeTasks_length_le _ _ _ ?_ (by simp)
    intro p hp
    rw [hcomp] at hp
    obtain ⟨id, hid, hpe⟩ := List.mem_map.mp hp
    rw [← hpe]
    exact hidlt id hid
  have hstate : (completeTasks ⟨[]⟩ (s.completions order)).batches = batchLists := by
    refine List.ext_getElem? ?_
    intro i
    by_cases hi : i < s.Scan.length
    · rw [hget i hi, List.getD_eq_getElem _ _ (by omega),
        List.getElem?_eq_getElem (by omega)]
    · rw [List.getElem?_eq_none (by omega), List.getElem?_eq_none (by omega)]
  unfold Scanner.ToTableWithOrder
  simp only [taskGroupFinish_ok _ hallok, FlattenRecordBatchVector, hstate]

/-- Claim C1: for every scan driven by `ToTable`, whatever order the scan
tasks complete in (any permutation of submission order), each task's batch
list is stored at its zero-based submission index, the stored lists are
flattened in index order before the table is constructed, and the outcome
is identical to the serial (submission-order) run. -/
theorem ToTable_submission_order (s : Scanner) (order : List Nat)
    (batchLists : List (List RecordBatch))
    (hexec : s.Scan.map ScanTask.Execute = batchLists.map Except.ok)
    (hperm : order.Perm (List.range s.Scan.length)) :
    s.ToTableWithOrder order =
      Table.FromRecordBatches s.scan_options.schema batchLists.flatten ∧
    s.ToTableWithOrder order = s.ToTable := by
  have h1 := toTableWithOrder_eq_flatten s order batchLists hexec hperm
  have h2 := toTableWithOrder_eq_flatten s (List.range s.Scan.length)
    batchLists hexec (List.Perm.refl _)
  exact ⟨h1, h1.trans h2.symm⟩

/-- Witness for claim C1: scanning the two-fragment sample dataset with the
completion order reversed (task 1 finishes before task 0) still assembles
`[batchA, batchB]` in submission order, equal to the serial run. -/
theorem ToTable_submission_order_witness :
    List.Perm [1, 0] (List.range sampleScanner.Scan.length) ∧
    sampleScanner.ToTableWithOrder [1, 0] =
      Table.FromRecordBatches sampleScanner.scan_options.schema
        [[batchA], [batchB]].flatten ∧
    sampleScanner.ToTableWithOrder [1, 0] = sampleScanner.ToTable :=
  have hperm : List.Perm [1, 0] (List.range sampleScanner.Scan.length) := by
    decide
  have h := ToTable_submission_order sampleScanner [1, 0] [[batchA], [batchB]]
    rfl hperm
  ⟨hperm, h.1, h.2⟩

/-- Claim C4: when at least one scan task fails, `ToTable` returns exactly
the (first) error the task group's `Finish` propagates, and returns no
table. -/
theorem ToTable_error_propagation (s : Scanner) (order : List Nat)
    (id : Nat) (msg : String)
    (hfail : (id, Except.error msg) ∈ s.completions order) :
    ∃ e, taskGroupFinish (s.completions order) = .error e ∧
      s.ToTableWithOrder order = .error e ∧
      ∀ t : Table, s.ToTableWithOrder order ≠ .ok t := by
  obtain ⟨e, he⟩ := taskGroupFinish_error _ id msg hfail
  refine ⟨e, he, ?_, ?_⟩
  · unfold Scanner.ToTableWithOrder
    simp only [he]
  · intro t
    unfold Scanner.ToTableWithOrder
    simp only [he]
    exact fun hcon => Except.noConfusion hcon

/-- A fragment whose scan task fails with an I/O-style error. -/
def failFrag : Fragment := ⟨fun _ _ => .fragmentBacked (fun _ => .error "boom")⟩

/-- A scanner over the failing fragment, used by the C4 witness. -/
def failScanner : Scanner :=
  Scanner.mk none (some failFrag) (ScanOptions.Make sampleSchema) sampleCtx

/-- Witness for claim C4: the failing task's error is what `Finish`
propagates and what `ToTable` returns; no table is produced. -/
theorem ToTable_error_propagation_witness :
    ∃ e, taskGroupFinish (failScanner.completions [0]) = .error e ∧
      failScanner.ToTableWithOrder [0] = .error e ∧
      ∀ t : Table, failScanner.ToTableWithOrder [0] ≠ .ok t :=
  ToTable_error_propagation failScanner [0] 0 "boom" (List.Mem.head _)

end SkyhookDM

